import Mathlib

/-!
# Verification of the Qrack QBdt / QUnitMulti core

Shallow embedding of `src/unnamed/part_000` (the `QBdt` quantum binary
decision tree register, `Qrack` namespace) and `src/src/qunitmulti.cpp`
(the `QUnitMulti` multi-device shard orchestrator), together with proofs
about the embedded operations.

Modelling conventions, used throughout:
* `complex` values are modelled exactly as pairs of rationals (`CQ`);
  `norm` is the squared modulus, as in the C++ `std::norm`.
* `IS_NORM_0` compares the squared modulus against the floating-point
  epsilon `FP_NORM_EPSILON`; in this exact-rational model the tolerance
  is zero, so `isNorm0 c` holds exactly when `c = 0`.
* `bitCapInt` / `bitLenInt` are modelled as `Nat`; `pow2 n` is `2 ^ n`.
* `QBdtNodeInterface::Branch` replaces a node's children by fresh copies
  of what they already reference (copy-on-write unsharing); on the value
  level it is the identity and is therefore not represented.
* Randomness (`Rand()`) is supplied as an explicit parameter.
-/

namespace Qrack

/-- Exact complex number: real and imaginary part as rationals. -/
structure CQ where
  re : ℚ
  im : ℚ
deriving DecidableEq, Repr

/-- The complex zero `ZERO_CMPLX`. -/
def czero : CQ := ⟨0, 0⟩

/-- The complex one `ONE_CMPLX`. -/
def cone : CQ := ⟨1, 0⟩

/-- Complex addition. -/
def cadd (x y : CQ) : CQ := ⟨x.re + y.re, x.im + y.im⟩

/-- Complex multiplication. -/
def cmul (x y : CQ) : CQ := ⟨x.re * y.re - x.im * y.im, x.re * y.im + x.im * y.re⟩

/-- Complex conjugate (`conj`). -/
def cconj (x : CQ) : CQ := ⟨x.re, -x.im⟩

/-- Squared modulus, the C++ `norm(complex)`. -/
def normSq (x : CQ) : ℚ := x.re * x.re + x.im * x.im

/-- Modelled from the spec: `clampProb` (declared in a header outside
`src/`) clamps a probability value into the interval `[0, 1]`. -/
def clampProb (p : ℚ) : ℚ := if p < 0 then 0 else if 1 < p then 1 else p

/-- The `IS_NORM_0` test: the squared modulus is at (floating) tolerance
zero; exact zero in this rational model. -/
def isNorm0 (c : CQ) : Bool := normSq c = 0

theorem cmul_czero (x : CQ) : cmul x czero = czero := by
  simp [cmul, czero]

theorem cmul_cone (x : CQ) : cmul x cone = x := by
  simp [cmul, cone]

theorem cone_cmul (x : CQ) : cmul cone x = x := by
  simp [cmul, cone]

theorem isNorm0_czero : isNorm0 czero = true := by
  simp [isNorm0, czero, normSq]

theorem isNorm0_cone : isNorm0 cone = false := by
  simp [isNorm0, cone, normSq]

theorem isNorm0_iff_eq_czero (c : CQ) : isNorm0 c = true ↔ c = czero := by
  unfold isNorm0 normSq czero
  constructor
  · intro h
    have h' : c.re * c.re + c.im * c.im = 0 := of_decide_eq_true h
    have hre : c.re = 0 := by nlinarith [mul_self_nonneg c.re, mul_self_nonneg c.im]
    have him : c.im = 0 := by nlinarith [mul_self_nonneg c.re, mul_self_nonneg c.im]
    cases c
    simp_all
  · intro h
    subst h
    simp

theorem clampProb_nonneg (p : ℚ) : 0 ≤ clampProb p := by
  unfold clampProb
  split
  · exact le_refl 0
  · split
    · exact zero_le_one
    · linarith [not_lt.mp (by assumption : ¬ p < 0)]

theorem clampProb_le_one (p : ℚ) : clampProb p ≤ 1 := by
  unfold clampProb
  split
  · exact zero_le_one
  · split
    · exact le_refl 1
    · exact le_of_not_lt (by assumption)

/-- Modelled from the spec: the opaque dense backend engine attached at
tree leaves (`QInterface`, §6 of the spec; its implementation is not under
`src/`). It is a finite amplitude vector over `qc` qubits.  `mallResult`
is the outcome its random `MAll()` sampling would produce, supplied as
part of the model since the backend's RNG is external. -/
structure Engine where
  qc : Nat
  amps : List CQ
  mallResult : Nat
deriving DecidableEq, Repr

/-- Backend `GetAmplitude(perm)` (§6): amplitude of basis state `perm`. -/
def Engine.ampAt (e : Engine) (perm : Nat) : CQ := e.amps.getD perm czero

/-- Modelled from the spec: backend `ProbAll(perm)` (§6) returns the
squared modulus of the amplitude at `perm`, clamped to `[0,1]` (§8
invariant 1 and the probability convention of §4.2). -/
def Engine.probAll (e : Engine) (perm : Nat) : ℚ := clampProb (normSq (e.ampAt perm))

/-- Modelled from the spec: backend `Prob(q)` (§6), the marginal
probability that qubit `q` reads 1: the sum of squared amplitudes over
basis states with bit `q` set. -/
def Engine.prob (e : Engine) (q : Nat) : ℚ :=
  (((List.range (2 ^ e.qc)).filter (fun p => p.testBit q)).map
    (fun p => normSq (e.ampAt p))).sum

/-- Modelled from the spec: a backend engine freshly initialised to the
basis state `perm` (`CreateQuantumInterface(..., perm, ...)`); its
deterministic `MAll()` outcome is `perm` itself. -/
def basisEngine (qc perm : Nat) : Engine :=
  ⟨qc, (List.range (2 ^ qc)).map (fun p => if p = perm then cone else czero), perm⟩

/-- Modelled from the spec: the state of a backend engine after its
`MAll()` has collapsed it to the measured basis state `mallResult`. -/
def Engine.collapsed (e : Engine) : Engine := basisEngine e.qc e.mallResult

/-- The default-constructed `QBdtQInterfaceNode()` holds no engine. -/
def emptyEngine : Engine := ⟨0, [], 0⟩

/-- A `QBdtNodeInterface` tree vertex.
* `tip s` — a `QBdtNode(s)` whose branch pointers are null;
* `node s b0 b1` — a `QBdtNode(s)` with children `branches[0]`, `branches[1]`;
* `qiNode s e` — a `QBdtQInterfaceNode(s, e)` attached leaf wrapping a
  backend engine. -/
inductive BdtNode where
  | tip (scale : CQ)
  | node (scale : CQ) (b0 b1 : BdtNode)
  | qiNode (scale : CQ) (eng : Engine)
deriving DecidableEq, Repr

namespace BdtNode

/-- The node's `scale` field. -/
def getScale : BdtNode → CQ
  | tip s => s
  | node s _ _ => s
  | qiNode s _ => s

/-- Replace the node's `scale` field, keeping its children. -/
def withScale : BdtNode → CQ → BdtNode
  | tip _, s => tip s
  | node _ b0 b1, s => node s b0 b1
  | qiNode _ e, s => qiNode s e

/-- `branches[b]` of a node.  In the source a null branch pointer is never
dereferenced on a live path (descent breaks first on a zero scale), so a
missing branch is totalised to the canonical zero node. -/
def getBranch : BdtNode → Bool → BdtNode
  | node _ b0 b1, b => if b then b1 else b0
  | _, _ => tip czero

/-- `NODE_TO_QINTERFACE`: the engine held by an attached leaf. -/
def getEngine : BdtNode → Engine
  | qiNode _ e => e
  | _ => emptyEngine

end BdtNode

/-- The canonical zero node, the result of `SetZero()` (modelled from the
spec's "zero child" normal form, §3.1: `scale == 0`, children irrelevant). -/
def zeroNode : BdtNode := BdtNode.tip czero

/-- A `QBdt` register: tree qubit count, attached qubit count, root node
and the `isStateVec` mode flag.  `qubitCount = bdt + attached`. -/
structure QBdtState where
  bdt : Nat
  attached : Nat
  root : BdtNode
  isStateVec : Bool
deriving DecidableEq, Repr

namespace QBdtState

/-- `GetQubitCount()`. -/
def qubitCount (st : QBdtState) : Nat := st.bdt + st.attached

end QBdtState

/-- `SelectBit(perm, j)`: bit `j` of `perm`. -/
def selectBit (perm j : Nat) : Bool := (perm >>> j) % 2 = 1

/-- The linear basis path built by `SetPermutation` when no attached
qubits exist: `n` levels below a node of scale `s`; at each level the
child selected by the corresponding bit of `k` is a fresh node of scale
1, its sibling a fresh node of scale 0 (null branches = `tip`). -/
def permPath : Nat → Nat → CQ → BdtNode
  | 0, _, s => BdtNode.tip s
  | n + 1, k, s =>
    if k % 2 = 1 then BdtNode.node s (BdtNode.tip czero) (permPath n (k / 2) cone)
    else BdtNode.node s (permPath n (k / 2) cone) (BdtNode.tip czero)

/-- The path built by `SetPermutation` when attached qubits exist:
`maxQubit = bdt - 1` tree levels, then at the last level the selected
child is an attached leaf holding the basis state `kTop = k >> bdt` and
the sibling a default `QBdtQInterfaceNode()`. -/
def permPathAtt (att kTop : Nat) : Nat → Nat → CQ → BdtNode
  | 0, k, s =>
    if k % 2 = 1 then
      BdtNode.node s (BdtNode.qiNode czero emptyEngine) (BdtNode.qiNode cone (basisEngine att kTop))
    else
      BdtNode.node s (BdtNode.qiNode cone (basisEngine att kTop)) (BdtNode.qiNode czero emptyEngine)
  | n + 1, k, s =>
    if k % 2 = 1 then BdtNode.node s (BdtNode.tip czero) (permPathAtt att kTop n (k / 2) cone)
    else BdtNode.node s (permPathAtt att kTop n (k / 2) cone) (BdtNode.tip czero)

/-- `QBdt::SetPermutation(initState)` with the default phase argument and
`randGlobalPhase = false` (so `phaseFac = ONE_CMPLX`).  If the register
is in state-vector mode the qubit counts are first reset to all-tree
(`SetQubitCount(qubitCount, 0U)`). -/
def setPermutation (st : QBdtState) (initState : Nat) : QBdtState :=
  let bdt := if st.isStateVec then st.qubitCount else st.bdt
  let att := if st.isStateVec then 0 else st.attached
  if att ≠ 0 ∧ bdt = 0 then
    ⟨bdt, att, BdtNode.qiNode cone (basisEngine att initState), false⟩
  else if att ≠ 0 then
    ⟨bdt, att, permPathAtt att (initState >>> bdt) (bdt - 1) initState cone, false⟩
  else
    ⟨bdt, att, permPath bdt initState cone, false⟩

/-- The descent loop shared textually by `GetAmplitude`: walk `n` tree
levels along the bits of `perm`, multiplying scales, breaking once the
accumulated scale is norm-zero; returns the accumulated scale and the
node reached. -/
def ampLoop : BdtNode → CQ → Nat → Nat → CQ × BdtNode
  | t, s, 0, _ => (s, t)
  | t, s, n + 1, perm =>
    if isNorm0 s then (s, t)
    else
      let c := t.getBranch (selectBit perm 0)
      ampLoop c (cmul s c.getScale) n (perm / 2)

/-- `QBdt::GetAmplitude(perm)`. -/
def getAmplitude (st : QBdtState) (perm : Nat) : CQ :=
  if st.isStateVec then (st.root.getEngine).ampAt perm
  else
    let r := ampLoop st.root st.root.getScale st.bdt perm
    if ¬ (isNorm0 r.1) ∧ 0 < st.attached then
      cmul r.1 ((r.2.getEngine).ampAt (perm >>> st.bdt))
    else r.1

/-- The descent loop of `QBdt::ProbAll` (same shape as the one in
`GetAmplitude`; the two C++ functions each contain their own copy). -/
def probAllLoop : BdtNode → CQ → Nat → Nat → CQ × BdtNode
  | t, s, 0, _ => (s, t)
  | t, s, n + 1, perm =>
    if isNorm0 s then (s, t)
    else
      let c := t.getBranch (selectBit perm 0)
      probAllLoop c (cmul s c.getScale) n (perm / 2)

/-- `QBdt::ProbAll(perm)`. -/
def probAll (st : QBdtState) (perm : Nat) : ℚ :=
  if st.isStateVec then (st.root.getEngine).probAll perm
  else
    let r := probAllLoop st.root st.root.getScale st.bdt perm
    if ¬ (isNorm0 r.1) ∧ 0 < st.attached then
      clampProb (normSq (cmul r.1 ((r.2.getEngine).ampAt (perm >>> st.bdt))))
    else clampProb (normSq r.1)

theorem getScale_tip (s : CQ) : (BdtNode.tip s).getScale = s := rfl

theorem getScale_node (s : CQ) (b0 b1 : BdtNode) :
    (BdtNode.node s b0 b1).getScale = s := rfl

theorem getScale_qiNode (s : CQ) (e : Engine) :
    (BdtNode.qiNode s e).getScale = s := rfl

theorem getBranch_node (s : CQ) (b0 b1 : BdtNode) (b : Bool) :
    (BdtNode.node s b0 b1).getBranch b = if b then b1 else b0 := rfl

theorem probAllLoop_eq_ampLoop (t : BdtNode) (s : CQ) (n perm : Nat) :
    probAllLoop t s n perm = ampLoop t s n perm := by
  induction n generalizing t s perm with
  | zero => rfl
  | succ n ih =>
    unfold probAllLoop ampLoop
    by_cases h : isNorm0 s
    · simp [h]
    · simp [h, ih]

/-- A Bool checker for the linear-path shape the claim describes: at each
of `n` levels, the child selected by the corresponding bit of `k` has
scale 1 and the sibling has scale 0, the path continuing through the
selected child. -/
def checkLinear : Nat → Nat → BdtNode → Bool
  | 0, _, _ => true
  | n + 1, k, BdtNode.node _ b0 b1 =>
    let sel := if k % 2 = 1 then b1 else b0
    let sib := if k % 2 = 1 then b0 else b1
    (sel.getScale = cone) && (sib.getScale = czero) && checkLinear n (k / 2) sel
  | _ + 1, _, _ => false

theorem permPath_getScale (n k : Nat) (s : CQ) : (permPath n k s).getScale = s := by
  cases n with
  | zero => rfl
  | succ n =>
    unfold permPath
    by_cases h : k % 2 = 1 <;> simp [h, BdtNode.getScale]

theorem checkLinear_permPath (n k : Nat) (s : CQ) :
    checkLinear n k (permPath n k s) = true := by
  induction n generalizing k s with
  | zero => rfl
  | succ n ih =>
    unfold permPath checkLinear
    by_cases h : k % 2 = 1 <;>
      simp [h, getScale_tip, ih, permPath_getScale]

theorem ampLoop_czero (t : BdtNode) (n perm : Nat) :
    (ampLoop t czero n perm).1 = czero := by
  cases n with
  | zero => rfl
  | succ n => unfold ampLoop; simp [isNorm0_czero]

theorem ampLoop_permPath_same (n : Nat) :
    ∀ k, (ampLoop (permPath n k cone) cone n k).1 = cone := by
  induction n with
  | zero => intro k; rfl
  | succ n ih =>
    intro k
    unfold permPath ampLoop
    by_cases h : k % 2 = 1
    · simpa [h, isNorm0_cone, getBranch_node, selectBit, Nat.shiftRight_zero,
        permPath_getScale, cmul_cone] using ih (k / 2)
    · simpa [h, isNorm0_cone, getBranch_node, selectBit, Nat.shiftRight_zero,
        permPath_getScale, cmul_cone] using ih (k / 2)

theorem ampLoop_permPath_other (n : Nat) :
    ∀ k j, k < 2 ^ n → j < 2 ^ n → j ≠ k →
      (ampLoop (permPath n k cone) cone n j).1 = czero := by
  induction n with
  | zero =>
    intro k j hk hj hne
    interval_cases k
    interval_cases j
    simp_all
  | succ n ih =>
    intro k j hk hj hne
    unfold permPath ampLoop
    by_cases hkb : k % 2 = 1 <;> by_cases hjb : j % 2 = 1
    · -- same bit 1: descend into the selected child with j/2 ≠ k/2
      have hdiv : j / 2 ≠ k / 2 := by
        intro hd
        exact hne (by omega)
      have hk2 : k / 2 < 2 ^ n := by
        have := hk
        rw [pow_succ] at this
        omega
      have hj2 : j / 2 < 2 ^ n := by
        have := hj
        rw [pow_succ] at this
        omega
      simp [hkb, hjb, isNorm0_cone, getBranch_node, selectBit, Nat.shiftRight_zero,
        permPath_getScale, cmul_cone]
      exact ih (k / 2) (j / 2) hk2 hj2 hdiv
    · -- bits differ: descend into the zero sibling
      simp [hkb, hjb, isNorm0_cone, getBranch_node, selectBit, Nat.shiftRight_zero,
        getScale_tip, cmul_czero]
      exact ampLoop_czero _ _ _
    · simp [hkb, hjb, isNorm0_cone, getBranch_node, selectBit, Nat.shiftRight_zero,
        getScale_tip, cmul_czero]
      exact ampLoop_czero _ _ _
    · have hdiv : j / 2 ≠ k / 2 := by
        intro hd
        exact hne (by omega)
      have hk2 : k / 2 < 2 ^ n := by
        have := hk
        rw [pow_succ] at this
        omega
      have hj2 : j / 2 < 2 ^ n := by
        have := hj
        rw [pow_succ] at this
        omega
      simp [hkb, hjb, isNorm0_cone, getBranch_node, selectBit, Nat.shiftRight_zero,
        permPath_getScale, cmul_cone]
      exact ih (k / 2) (j / 2) hk2 hj2 hdiv

/-- C4: after `SetPermutation(k)` with the default (non-random) phase on a
register with no attached qubits, the tree is a linear path of depth
`bdtQubitCount` whose selected child has scale 1 and sibling scale 0 at
every level, and consequently `GetAmplitude(k) = 1` while
`GetAmplitude(j) = 0` for every other `j` below `2 ^ bdtQubitCount`. -/
theorem setPermutation_basis_state (st : QBdtState) (k j : Nat)
    (hatt : st.attached = 0) (hk : k < 2 ^ st.bdt) (hj : j < 2 ^ st.bdt) :
    checkLinear st.bdt k (setPermutation st k).root = true ∧
    getAmplitude (setPermutation st k) k = cone ∧
    (j ≠ k → getAmplitude (setPermutation st k) j = czero) := by
  have hq : st.qubitCount = st.bdt := by simp [QBdtState.qubitCount, hatt]
  have hroot : setPermutation st k =
      ⟨st.bdt, 0, permPath st.bdt k cone, false⟩ := by
    unfold setPermutation
    cases hsv : st.isStateVec <;> simp [hatt, hq]
  rw [hroot]
  refine ⟨checkLinear_permPath _ _ _, ?_, ?_⟩
  · unfold getAmplitude
    simp [permPath_getScale, ampLoop_permPath_same]
  · intro hne
    unfold getAmplitude
    simp [permPath_getScale, ampLoop_permPath_other st.bdt k j hk hj hne]

/-- Witness for `setPermutation_basis_state` at 3 qubits,
`SetPermutation(0b101)`: the amplitude of `0b101` is 1 and the amplitude
of `0b010` is 0. -/
theorem setPermutation_basis_state_witness :
    ((⟨3, 0, BdtNode.tip cone, false⟩ : QBdtState).attached = 0 ∧
      5 < 2 ^ (3 : Nat) ∧ 2 < 2 ^ (3 : Nat)) ∧
    (checkLinear 3 5 (setPermutation ⟨3, 0, BdtNode.tip cone, false⟩ 5).root = true ∧
      getAmplitude (setPermutation ⟨3, 0, BdtNode.tip cone, false⟩ 5) 5 = cone ∧
      (2 ≠ 5 → getAmplitude (setPermutation ⟨3, 0, BdtNode.tip cone, false⟩ 5) 2 = czero)) :=
  ⟨⟨rfl, by norm_num, by norm_num⟩,
    setPermutation_basis_state ⟨3, 0, BdtNode.tip cone, false⟩ 5 2 rfl
      (by norm_num) (by norm_num)⟩

/-- C5: for every register (tree mode or flat mode) and permutation,
`ProbAll(perm)` equals the squared modulus of `GetAmplitude(perm)`
clamped to `[0, 1]`. -/
theorem probAll_eq_clamped_normSq_getAmplitude (st : QBdtState) (perm : Nat) :
    probAll st perm = clampProb (normSq (getAmplitude st perm)) := by
  unfold probAll getAmplitude
  cases hsv : st.isStateVec
  · simp only [Bool.false_eq_true, if_false, probAllLoop_eq_ampLoop]
    split <;> rfl
  · simp only [if_true]
    rfl

/-- A balanced tree of depth `n` realising a dense amplitude vector:
interior scales are 1, the scale at the end of the path for `p` is the
amplitude of `p` (bit `j` of `p` selects the branch at depth `j`). -/
def treeOfAmps : Nat → (Nat → CQ) → BdtNode
  | 0, f => BdtNode.tip (f 0)
  | n + 1, f =>
    BdtNode.node cone (treeOfAmps n (fun p => f (2 * p)))
      (treeOfAmps n (fun p => f (2 * p + 1)))

/-- Modelled from the spec: `ResetStateVector` (declared outside `src/`;
spec §4.2 "state machine") converts a flat-mode register back to tree
mode by rebuilding the tree from the dense amplitudes of the single
attached leaf; a register already in tree mode is left unchanged.  The
`Prune`/`PopStateVector` canonicalisation after the rebuild is
amplitude-preserving (§4.1) and is not represented in this value-level
model. -/
def resetStateVector (st : QBdtState) : QBdtState :=
  if st.isStateVec then
    ⟨st.qubitCount, 0, treeOfAmps st.qubitCount (fun p => (st.root.getEngine).ampAt p), false⟩
  else st

/-- The descent loop of `QBdt::SumSqrDiff`: walk `n` levels along the
bits of `perm`, multiplying scales; `none` when the loop broke early
(`j < qubitCount` in the source, which then `continue`s). -/
def pathScaleOpt : BdtNode → CQ → Nat → Nat → Option CQ
  | _, s, 0, _ => some s
  | t, s, n + 1, perm =>
    if isNorm0 s then none
    else
      let c := t.getBranch (selectBit perm 0)
      pathScaleOpt c (cmul s c.getScale) n (perm / 2)

/-- The inner-product accumulation of `QBdt::SumSqrDiff`: over every
basis path `i`, multiply `conj(scale2) * scale1`, skipping `i` whenever
either walk broke on a norm-zero scale. -/
def projSum (ra rb : BdtNode) (qc : Nat) : CQ :=
  (List.range (2 ^ qc)).foldl
    (fun acc i =>
      match pathScaleOpt ra ra.getScale qc i with
      | none => acc
      | some s1 =>
        match pathScaleOpt rb rb.getScale qc i with
        | none => acc
        | some s2 => cadd acc (cmul (cconj s2) s1))
    czero

/-- `QBdt::SumSqrDiff(toCompare)`.  `sameObj` models the C++ pointer
identity test `this == toCompare.get()`; the returned triple is the
result value together with the (possibly reset) post-states of `this`
and `toCompare`. -/
def sumSqrDiffFull (sameObj : Bool) (a b : QBdtState) : ℚ × QBdtState × QBdtState :=
  if sameObj then (0, a, b)
  else if a.qubitCount ≠ b.qubitCount then (1, a, b)
  else
    let a2 := resetStateVector a
    let b2 := resetStateVector b
    (1 - clampProb (normSq (projSum a2.root b2.root a.qubitCount)), a2, b2)

/-- C6: `SumSqrDiff` applied to the register itself returns exactly 0,
and for every pair of registers the returned value lies in `[0, 1]`. -/
theorem sumSqrDiff_self_zero_and_bounded (s : Bool) (a b : QBdtState) :
    (sumSqrDiffFull true a a).1 = 0 ∧
    0 ≤ (sumSqrDiffFull s a b).1 ∧ (sumSqrDiffFull s a b).1 ≤ 1 := by
  refine ⟨by simp [sumSqrDiffFull], ?_, ?_⟩
  · unfold sumSqrDiffFull
    cases s
    · by_cases h : a.qubitCount ≠ b.qubitCount
      · simp [h]
      · have := clampProb_le_one (normSq (projSum (resetStateVector a).root
          (resetStateVector b).root a.qubitCount))
        simp [h]
        linarith
    · simp
  · unfold sumSqrDiffFull
    cases s
    · by_cases h : a.qubitCount ≠ b.qubitCount
      · simp [h]
      · have := clampProb_nonneg (normSq (projSum (resetStateVector a).root
          (resetStateVector b).root a.qubitCount))
        simp [h]
        linarith
    · simp

/-- C10: for distinct registers whose qubit counts differ, `SumSqrDiff`
returns exactly 1, and neither register's state is touched (the early
return precedes even the flat-mode reset). -/
theorem sumSqrDiff_qubitCount_mismatch (a b : QBdtState)
    (h : a.qubitCount ≠ b.qubitCount) :
    sumSqrDiffFull false a b = (1, a, b) := by
  simp [sumSqrDiffFull, h]

/-- Witness for `sumSqrDiff_qubitCount_mismatch`: a 1-qubit and a 2-qubit
register. -/
theorem sumSqrDiff_qubitCount_mismatch_witness :
    (⟨1, 0, BdtNode.tip cone, false⟩ : QBdtState).qubitCount ≠
      (⟨2, 0, BdtNode.tip cone, false⟩ : QBdtState).qubitCount ∧
    sumSqrDiffFull false ⟨1, 0, BdtNode.tip cone, false⟩ ⟨2, 0, BdtNode.tip cone, false⟩ =
      (1, ⟨1, 0, BdtNode.tip cone, false⟩, ⟨2, 0, BdtNode.tip cone, false⟩) :=
  ⟨by decide, sumSqrDiff_qubitCount_mismatch _ _ (by decide)⟩

/-- `QBdt::Prob(qubit)`: marginal probability that `qubit` reads 1.  The
descent loop has the same shape as the one in `GetAmplitude`, so
`ampLoop` is reused.  For attached-leaf qubits the source computes
`qiProbs[qi] = sqrt(engine->Prob(...))` and accumulates
`norm(scale * qiProbs[qi])`; since `norm(s * sqrt(p)) = normSq(s) * p`
exactly (for `p ≥ 0`), the model accumulates `normSq scale * p`,
avoiding the irrational square root (the per-engine `qiProbs` cache of
the source only avoids recomputation and is value-transparent). -/
def prob (st : QBdtState) (q : Nat) : ℚ :=
  if st.isStateVec then (st.root.getEngine).prob q
  else
    let isKet := st.bdt ≤ q
    let maxQ := if isKet then st.bdt else q
    let oneChance := (List.range (2 ^ maxQ)).foldl
      (fun acc i =>
        let r := ampLoop st.root st.root.getScale maxQ i
        if isNorm0 r.1 then acc
        else if isKet then acc + normSq r.1 * ((r.2.getEngine).prob (q - st.bdt))
        else acc + normSq (cmul r.1 ((r.2.getBranch true).getScale))) 0
    clampProb oneChance

/-- The sampling rule shared by `ForceM` and the flat-mode backend:
deterministic at the endpoints, `Rand() <= oneChance` in between. -/
def sampleResult (oneChance rand : ℚ) : Bool :=
  if 1 ≤ oneChance then true
  else if oneChance ≤ 0 then false
  else rand ≤ oneChance

/-- Modelled from the spec: post-measurement collapse of a backend
engine on one qubit — amplitudes of basis states whose bit `q` differs
from the measured value are zeroed.  The subsequent renormalisation by
`1/sqrt(prob)` is not representable over `ℚ` and is omitted; no claim
proved below depends on the `doApply = true` path. -/
def Engine.collapseQubit (e : Engine) (q : Nat) (res : Bool) : Engine :=
  ⟨e.qc, (List.range e.amps.length).map
    (fun p => if p.testBit q = res then e.ampAt p else czero), e.mallResult⟩

/-- Modelled from the spec: backend `ForceM(q, result, doForce, doApply)`
(§6, §4.2): returns the forced result, or a result sampled from the
engine's marginal probability; mutates the engine only when `doApply`. -/
def Engine.forceM (e : Engine) (q : Nat) (result : Bool) (doForce doApply : Bool)
    (rand : ℚ) : Bool × Engine :=
  let res := if doForce then result else sampleResult (e.prob q) rand
  if doApply then (res, e.collapseQubit q res) else (res, e)

/-- Replace the engine of an attached leaf, keeping any other node
unchanged. -/
def BdtNode.withEngine : BdtNode → Engine → BdtNode
  | BdtNode.qiNode s _, e => BdtNode.qiNode s e
  | t, _ => t

theorem withEngine_getEngine (t : BdtNode) : t.withEngine t.getEngine = t := by
  cases t <;> rfl

/-- Modelled from the spec: `Prune` (§4.1; its code is outside `src/`)
merges equal children and extracts common scale factors while preserving
every path amplitude; it is the identity on the value level. -/
def pruneModel (t : BdtNode) : BdtNode := t

/-- The per-branch phase normalisation `scale /= abs(scale)` in the
`doApply` path of `ForceM`.  `abs` is an irrational square root, not
representable over `ℚ`; the model keeps the scale (it differs from the
source value only by the positive factor `|scale|`).  No claim proved
below depends on the `doApply = true` path. -/
def phaseNorm (t : BdtNode) : BdtNode := t

/-- The `doApply` mutation loop of `QBdt::ForceM` for a sampled result
`res`: walk every path to the target depth (skipping norm-zero
subtrees); at the target, zero the rejected child and phase-normalise
the accepted one; for attached qubits (`ketQ = some q`) forward
`ForceM(q, result, false, true)` to the leaf engine. -/
def forceMCollapse (res : Bool) (ketQ : Option Nat) (rand : ℚ) : Nat → BdtNode → BdtNode
  | 0, t =>
    if isNorm0 t.getScale then t
    else
      match ketQ with
      | some qq => t.withEngine ((t.getEngine).forceM qq res false true rand).2
      | none =>
        match t with
        | BdtNode.node s b0 b1 =>
          if res then BdtNode.node s zeroNode (phaseNorm b1)
          else BdtNode.node s (phaseNorm b0) zeroNode
        | other => other
  | n + 1, t =>
    if isNorm0 t.getScale then t
    else
      BdtNode.node t.getScale (forceMCollapse res ketQ rand n (t.getBranch false))
        (forceMCollapse res ketQ rand n (t.getBranch true))

/-- Modelled from the spec: the dense single attached leaf produced by
`SetStateVector` (§4.2 state machine; code outside `src/`), holding all
`2 ^ qubitCount` amplitudes of the register.  Its `mallResult` model
field is arbitrary (0): no claim below samples it. -/
def stateVecEngine (st : QBdtState) : Engine :=
  ⟨st.qubitCount, (List.range (2 ^ st.qubitCount)).map (fun p => getAmplitude st p), 0⟩

/-- Modelled from the spec: `ExecuteAsStateVector(ForceM(q, result,
true, doApply))` — collapse to a single dense attached leaf, then apply
the forced measurement there (used by the `doForce && doApply` path; no
claim below depends on it). -/
def executeAsStateVectorForceM (st : QBdtState) (q : Nat) (result : Bool)
    (rand : ℚ) : QBdtState :=
  ⟨0, st.qubitCount,
    BdtNode.qiNode cone ((stateVecEngine st).forceM q result true true rand).2, true⟩

/-- `QBdt::ForceM(qubit, result, doForce, doApply)`: the returned bit
together with the post-state.  `GetNonunitaryPhase()` is modelled as 1
(`randGlobalPhase = false`), and the final `Prune` as `pruneModel`. -/
def forceM (st : QBdtState) (q : Nat) (result : Bool) (doForce doApply : Bool)
    (rand : ℚ) : Bool × QBdtState :=
  if st.isStateVec then
    let r := (st.root.getEngine).forceM q result doForce doApply rand
    (r.1, ⟨st.bdt, st.attached, st.root.withEngine r.2, st.isStateVec⟩)
  else if doForce then
    if doApply then (result, executeAsStateVectorForceM st q result rand)
    else (result, st)
  else
    let oneChance := prob st q
    let res := sampleResult oneChance rand
    if doApply then
      let isKet := st.bdt ≤ q
      let maxQ := if isKet then st.bdt else q
      let root1 := st.root.withScale cone
      (res, ⟨st.bdt, st.attached,
        pruneModel (forceMCollapse res (if isKet then some (q - st.bdt) else none)
          rand maxQ root1), false⟩)
    else (res, st)

/-- C9: `ForceM` with `doApply = false` leaves the register entirely
unchanged, and returns the forced result when `doForce`, otherwise the
result sampled from `oneChance = Prob(qubit)` (true at `≥ 1`, false at
`≤ 0`, random in between). -/
theorem forceM_no_apply (st : QBdtState) (q : Nat) (result : Bool)
    (doForce : Bool) (rand : ℚ) :
    (forceM st q result doForce false rand).2 = st ∧
    (forceM st q result doForce false rand).1 =
      (if doForce then result else sampleResult (prob st q) rand) := by
  unfold forceM
  cases hsv : st.isStateVec
  · cases doForce <;> simp [prob, hsv]
  · constructor
    · cases doForce <;>
        simp [Engine.forceM, withEngine_getEngine, hsv]
      · cases st
        simp_all
      · cases st
        simp_all
    · cases doForce <;> simp [Engine.forceM, prob, hsv]

/-- The tree walk of `QBdt::MAll`: at each level `i` branch, sample the
bit from the squared modulus of the `1`-branch scale (deterministic at
the endpoints), zero the rejected branch (`SetZero`), set the accepted
branch's scale to 1 and descend into it.  `useAtt` marks
`bdtQubitCount < qubitCount`: after the tree levels, `MAll()` is called
on the reached leaf engine and its outcome contributes the high bits
(`result |= engine << bdt`; the tree bits are below `2 ^ n`, so the OR
is addition of disjoint bit ranges).  The result accumulates
little-endian: level `i` contributes bit `i` (`result |= pow2(i)`). -/
def mAllWalk (rand : Nat → ℚ) (useAtt : Bool) : Nat → Nat → BdtNode → Nat × BdtNode
  | _, 0, t =>
    if useAtt then (t.getEngine.mallResult, t.withEngine t.getEngine.collapsed)
    else (0, t)
  | i, n + 1, t =>
    -- leaf->Branch(): copy-on-write, identity on values
    let b1 := t.getBranch true
    -- the sampling rule is the same endpoint-deterministic one as in ForceM
    let bit : Bool := sampleResult (clampProb (normSq b1.getScale)) (rand i)
    if bit then
      let r := mAllWalk rand useAtt (i + 1) n (b1.withScale cone)
      (1 + 2 * r.1, BdtNode.node t.getScale zeroNode r.2)
    else
      let b0 := t.getBranch false
      let r := mAllWalk rand useAtt (i + 1) n (b0.withScale cone)
      (2 * r.1, BdtNode.node t.getScale r.2 zeroNode)

/-- `QBdt::MAll()`.  In flat mode the backend's `MAll` outcome is taken
and the register is reset via `SetQubitCount(qubitCount, 0U)` followed
by `SetPermutation(toRet)` (both absorbed into `setPermutation`, whose
state-vector branch performs exactly that count reset).  In tree mode
the sampled walk collapses the tree in place. -/
def mAll (rand : Nat → ℚ) (st : QBdtState) : Nat × QBdtState :=
  if st.isStateVec then
    let toRet := st.root.getEngine.mallResult
    (toRet, setPermutation st toRet)
  else
    let r := mAllWalk rand (decide (st.bdt < st.qubitCount)) 0 st.bdt st.root
    (r.1, ⟨st.bdt, st.attached, r.2, st.isStateVec⟩)

theorem mAllWalk_getScale (rand : Nat → ℚ) (useAtt : Bool) (i n : Nat) (t : BdtNode) :
    (mAllWalk rand useAtt i n t).2.getScale = t.getScale := by
  cases n with
  | zero =>
    unfold mAllWalk
    cases useAtt
    · simp
    · simp only [if_true]
      cases t <;> rfl
  | succ n =>
    unfold mAllWalk
    dsimp only
    cases hbit : sampleResult (clampProb (normSq (t.getBranch true).getScale)) (rand i) <;>
      simp [hbit, getScale_node]

theorem mAllWalk_lt (rand : Nat → ℚ) (i n : Nat) (t : BdtNode) :
    (mAllWalk rand false i n t).1 < 2 ^ n := by
  induction n generalizing i t with
  | zero => simp [mAllWalk]
  | succ n ih =>
    unfold mAllWalk
    dsimp only
    cases hbit : sampleResult (clampProb (normSq (t.getBranch true).getScale)) (rand i)
    · have := ih (i + 1) ((t.getBranch false).withScale cone)
      simp only [hbit, Bool.false_eq_true, if_false]
      rw [pow_succ]
      omega
    · have := ih (i + 1) ((t.getBranch true).withScale cone)
      simp only [hbit, if_true]
      rw [pow_succ]
      omega

/-- C3 counterexample: a 1-qubit tree-mode register carrying the global
phase `-1` on its root (`|1⟩` up to phase).  `MAll` deterministically
measures 1, but the post-state is not `SetPermutation(1)`: the root
phase `-1` survives (observable through `GetAmplitude`), because the
tree-mode path of `MAll` performs no `SetPermutation` reset. -/
theorem mAll_tree_mode_no_reset_counterexample :
    (mAll (fun _ => 0)
        ⟨1, 0, BdtNode.node ⟨-1, 0⟩ (BdtNode.tip czero) (BdtNode.tip cone), false⟩).1 = 1 ∧
    (mAll (fun _ => 0)
        ⟨1, 0, BdtNode.node ⟨-1, 0⟩ (BdtNode.tip czero) (BdtNode.tip cone), false⟩).2 ≠
      setPermutation
        ⟨1, 0, BdtNode.node ⟨-1, 0⟩ (BdtNode.tip czero) (BdtNode.tip cone), false⟩ 1 ∧
    getAmplitude (mAll (fun _ => 0)
        ⟨1, 0, BdtNode.node ⟨-1, 0⟩ (BdtNode.tip czero) (BdtNode.tip cone), false⟩).2 1 =
      ⟨-1, 0⟩ ∧
    getAmplitude (setPermutation
        ⟨1, 0, BdtNode.node ⟨-1, 0⟩ (BdtNode.tip czero) (BdtNode.tip cone), false⟩ 1) 1 =
      cone := by
  refine ⟨?_, ?_, ?_, ?_⟩ <;>
    norm_num [mAll, mAllWalk, sampleResult, clampProb, normSq, cone, czero, zeroNode,
      QBdtState.qubitCount, BdtNode.getBranch, BdtNode.withScale, BdtNode.getScale,
      setPermutation, permPath, getAmplitude, ampLoop, isNorm0, cmul, selectBit]

/-- C3 amended: `MAll` samples the tree qubits bit-by-bit and, in flat
(state-vector) mode only, resets the register via
`SetPermutation(measuredValue)`; in tree mode the collapsed tree is left
in place (the root's scale — the global phase — is untouched, the mode
stays tree mode) and the tree bits of the result lie below
`2 ^ bdtQubitCount` (so the attached engine's `MAll` outcome occupies
the disjoint high bits). -/
theorem mAll_reset_only_in_flat_mode (rand : Nat → ℚ) (st : QBdtState) :
    (st.isStateVec = true →
      mAll rand st =
        (st.root.getEngine.mallResult, setPermutation st st.root.getEngine.mallResult)) ∧
    (st.isStateVec = false →
      (mAll rand st).2.root.getScale = st.root.getScale ∧
      (mAll rand st).2.isStateVec = false ∧
      (st.attached = 0 → (mAll rand st).1 < 2 ^ st.bdt)) := by
  constructor
  · intro h
    simp [mAll, h]
  · intro h
    refine ⟨?_, ?_, ?_⟩
    · simp [mAll, h, mAllWalk_getScale]
    · simp [mAll, h]
    · intro hatt
      have hd : decide (st.bdt < st.qubitCount) = false := by
        simp [QBdtState.qubitCount, hatt]
      simp [mAll, h, hd, mAllWalk_lt]

/-- Witness for `mAll_reset_only_in_flat_mode` at a concrete 1-qubit
tree-mode register. -/
theorem mAll_reset_only_in_flat_mode_witness :
    ((⟨1, 0, BdtNode.node cone (BdtNode.tip cone) (BdtNode.tip czero), false⟩ :
        QBdtState).isStateVec = true →
      mAll (fun _ => 0) ⟨1, 0, BdtNode.node cone (BdtNode.tip cone) (BdtNode.tip czero), false⟩ =
        ((⟨1, 0, BdtNode.node cone (BdtNode.tip cone) (BdtNode.tip czero), false⟩ :
            QBdtState).root.getEngine.mallResult,
          setPermutation ⟨1, 0, BdtNode.node cone (BdtNode.tip cone) (BdtNode.tip czero), false⟩
            (⟨1, 0, BdtNode.node cone (BdtNode.tip cone) (BdtNode.tip czero), false⟩ :
              QBdtState).root.getEngine.mallResult)) ∧
    ((⟨1, 0, BdtNode.node cone (BdtNode.tip cone) (BdtNode.tip czero), false⟩ :
        QBdtState).isStateVec = false →
      (mAll (fun _ => 0)
          ⟨1, 0, BdtNode.node cone (BdtNode.tip cone) (BdtNode.tip czero), false⟩).2.root.getScale =
        (⟨1, 0, BdtNode.node cone (BdtNode.tip cone) (BdtNode.tip czero), false⟩ :
          QBdtState).root.getScale ∧
      (mAll (fun _ => 0)
          ⟨1, 0, BdtNode.node cone (BdtNode.tip cone) (BdtNode.tip czero), false⟩).2.isStateVec =
        false ∧
      ((⟨1, 0, BdtNode.node cone (BdtNode.tip cone) (BdtNode.tip czero), false⟩ :
          QBdtState).attached = 0 →
        (mAll (fun _ => 0)
            ⟨1, 0, BdtNode.node cone (BdtNode.tip cone) (BdtNode.tip czero), false⟩).1 < 2 ^ 1)) :=
  mAll_reset_only_in_flat_mode (fun _ => 0)
    ⟨1, 0, BdtNode.node cone (BdtNode.tip cone) (BdtNode.tip czero), false⟩

/-- A `DeviceInfo` entry of `QUnitMulti::deviceList`: its position in the
list is the device index (index 0 is the default device), `maxSize` its
`CL_DEVICE_MAX_MEM_ALLOC_SIZE` capacity. -/
structure DeviceInfo where
  maxSize : Nat
deriving DecidableEq, Repr

/-- A `QEngineInfo` entry produced by `QUnitMulti::GetQInfos`: the
engine's `GetMaxQPower()`, its `GetQubitCount()` and the index of its
current device in `deviceList`.  `GetQInfos` sorts these descending by
size (the comparator lives in the header, outside `src/`; the sorted
list is taken here as the input).  Only non-null units are collected. -/
structure QEngineInfo where
  maxQPower : Nat
  unitQubitCount : Nat
  deviceIndex : Nat
deriving DecidableEq, Repr

/-- The configuration `RedistributeQEngines` reads from the
`QUnitMulti` object: the device list, whether the sub-engine type is
`QINTERFACE_HYBRID`, and the hybrid GPU-transition `thresholdQubits`. -/
structure RedistConfig where
  devices : List DeviceInfo
  isHybridSubEngine : Bool
  thresholdQubits : Nat
deriving DecidableEq, Repr

/-- The skip test of the redistribution loop: single-qubit engines
(`GetMaxQPower() <= 2U`) and, for a hybrid sub-engine type, engines
below the threshold qubit count keep their residency untouched. -/
def skipEngine (cfg : RedistConfig) (e : QEngineInfo) : Bool :=
  decide (e.maxQPower ≤ 2) ||
    (cfg.isHybridSubEngine && decide (e.unitQubitCount < cfg.thresholdQubits))

/-- The device-selection logic of `RedistributeQEngines` for one engine:
starting from the engine's current device (kept outright when its
accumulated load is zero), prefer the default device when it has
strictly smaller load, then scan all devices for one with strictly
smaller load than the running best that also fits the engine within its
`maxSize`; the accumulator carries `(devIndex, sz)` as in the source. -/
def chooseDevice (devSizes maxSizes : List Nat) (devIndex0 size : Nat) : Nat :=
  let sz0 := devSizes.getD devIndex0 0
  if sz0 = 0 then devIndex0
  else
    let start : Nat × Nat :=
      if devSizes.getD 0 0 < sz0 then (0, devSizes.getD 0 0) else (devIndex0, sz0)
    ((List.range devSizes.length).foldl
      (fun acc j =>
        if devSizes.getD j 0 < acc.2 ∧ devSizes.getD j 0 + size ≤ maxSizes.getD j 0 then
          (j, devSizes.getD j 0)
        else acc) start).1

/-- One iteration of the redistribution loop: skipped engines are kept
as they are (and add no load); otherwise the chosen device receives the
engine (`SetDevice`) and its running load grows by the engine's size. -/
def redistStep (cfg : RedistConfig) (acc : List Nat × List QEngineInfo)
    (e : QEngineInfo) : List Nat × List QEngineInfo :=
  if skipEngine cfg e then (acc.1, acc.2 ++ [e])
  else
    let maxSizes := cfg.devices.map (fun d => d.maxSize)
    let c := chooseDevice acc.1 maxSizes e.deviceIndex e.maxQPower
    (acc.1.set c (acc.1.getD c 0 + e.maxQPower),
      acc.2 ++ [⟨e.maxQPower, e.unitQubitCount, c⟩])

/-- `QUnitMulti::RedistributeQEngines()` on the size-descending engine
list from `GetQInfos`: returns the engines with their new device
indices.  With a single device the function returns immediately. -/
def redistributeQEngines (cfg : RedistConfig) (qinfos : List QEngineInfo) :
    List QEngineInfo :=
  if cfg.devices.length = 1 then qinfos
  else (qinfos.foldl (redistStep cfg) (List.replicate cfg.devices.length 0, [])).2

/-- The capacity property claimed for `RedistributeQEngines`: every
engine that is (re)placed satisfies `load-before + size ≤ maxSize` on
its chosen device. -/
def redistCapacityOK (cfg : RedistConfig) (qinfos : List QEngineInfo) : Bool :=
  if cfg.devices.length = 1 then true
  else
    (qinfos.foldl
      (fun (acc : List Nat × Bool) e =>
        if skipEngine cfg e then acc
        else
          let maxSizes := cfg.devices.map (fun d => d.maxSize)
          let c := chooseDevice acc.1 maxSizes e.deviceIndex e.maxQPower
          (acc.1.set c (acc.1.getD c 0 + e.maxQPower),
            acc.2 && decide (acc.1.getD c 0 + e.maxQPower ≤ maxSizes.getD c 0)))
      (List.replicate cfg.devices.length 0, true)).2

/-- The weaker placement property that actually holds: every (re)placed
engine either keeps its current device, or goes to the default device
(index 0), or is placed with the capacity bound satisfied. -/
def redistPlacementOK (cfg : RedistConfig) (qinfos : List QEngineInfo) : Bool :=
  if cfg.devices.length = 1 then true
  else
    (qinfos.foldl
      (fun (acc : List Nat × Bool) e =>
        if skipEngine cfg e then acc
        else
          let maxSizes := cfg.devices.map (fun d => d.maxSize)
          let c := chooseDevice acc.1 maxSizes e.deviceIndex e.maxQPower
          (acc.1.set c (acc.1.getD c 0 + e.maxQPower),
            acc.2 && (decide (c = e.deviceIndex) || decide (c = 0) ||
              decide (acc.1.getD c 0 + e.maxQPower ≤ maxSizes.getD c 0))))
      (List.replicate cfg.devices.length 0, true)).2

theorem chooseDevice_foldl_cases (devSizes maxSizes : List Nat) (size d0 : Nat)
    (l : List Nat) (acc : Nat × Nat)
    (hacc : acc.1 = d0 ∨ acc.1 = 0 ∨
      devSizes.getD acc.1 0 + size ≤ maxSizes.getD acc.1 0) :
    (l.foldl
      (fun acc j =>
        if devSizes.getD j 0 < acc.2 ∧ devSizes.getD j 0 + size ≤ maxSizes.getD j 0 then
          (j, devSizes.getD j 0)
        else acc) acc).1 = d0 ∨
    (l.foldl
      (fun acc j =>
        if devSizes.getD j 0 < acc.2 ∧ devSizes.getD j 0 + size ≤ maxSizes.getD j 0 then
          (j, devSizes.getD j 0)
        else acc) acc).1 = 0 ∨
    devSizes.getD
        ((l.foldl
          (fun acc j =>
            if devSizes.getD j 0 < acc.2 ∧ devSizes.getD j 0 + size ≤ maxSizes.getD j 0 then
              (j, devSizes.getD j 0)
            else acc) acc).1) 0 + size ≤
      maxSizes.getD
        ((l.foldl
          (fun acc j =>
            if devSizes.getD j 0 < acc.2 ∧ devSizes.getD j 0 + size ≤ maxSizes.getD j 0 then
              (j, devSizes.getD j 0)
            else acc) acc).1) 0 := by
  induction l generalizing acc with
  | nil => exact hacc
  | cons j l ih =>
    simp only [List.foldl_cons]
    by_cases h : devSizes.getD j 0 < acc.2 ∧ devSizes.getD j 0 + size ≤ maxSizes.getD j 0
    · rw [if_pos h]
      exact ih (j, devSizes.getD j 0) (Or.inr (Or.inr h.2))
    · rw [if_neg h]
      exact ih acc hacc

/-- Any device chosen by the selection logic is the engine's original
device, the default device, or one on which the capacity check held. -/
theorem chooseDevice_cases (devSizes maxSizes : List Nat) (d0 size : Nat) :
    chooseDevice devSizes maxSizes d0 size = d0 ∨
    chooseDevice devSizes maxSizes d0 size = 0 ∨
    devSizes.getD (chooseDevice devSizes maxSizes d0 size) 0 + size ≤
      maxSizes.getD (chooseDevice devSizes maxSizes d0 size) 0 := by
  unfold chooseDevice
  dsimp only
  by_cases h0 : devSizes.getD d0 0 = 0
  · rw [if_pos h0]
    exact Or.inl rfl
  · rw [if_neg h0]
    by_cases hdef : devSizes.getD 0 0 < devSizes.getD d0 0
    · rw [if_pos hdef]
      exact chooseDevice_foldl_cases devSizes maxSizes size d0 _ _ (Or.inr (Or.inl rfl))
    · rw [if_neg hdef]
      exact chooseDevice_foldl_cases devSizes maxSizes size d0 _ _ (Or.inl rfl)

theorem redistPlacementOK_foldl (cfg : RedistConfig) (l : List QEngineInfo) :
    ∀ ds : List Nat,
      (l.foldl
        (fun (acc : List Nat × Bool) e =>
          if skipEngine cfg e then acc
          else
            let maxSizes := cfg.devices.map (fun d => d.maxSize)
            let c := chooseDevice acc.1 maxSizes e.deviceIndex e.maxQPower
            (acc.1.set c (acc.1.getD c 0 + e.maxQPower),
              acc.2 && (decide (c = e.deviceIndex) || decide (c = 0) ||
                decide (acc.1.getD c 0 + e.maxQPower ≤ maxSizes.getD c 0))))
        (ds, true)).2 = true := by
  induction l with
  | nil => intro ds; rfl
  | cons e l ih =>
    intro ds
    simp only [List.foldl_cons]
    by_cases hs : skipEngine cfg e
    · simp only [if_pos hs]
      exact ih ds
    · simp only [if_neg hs]
      have hc := chooseDevice_cases ds (cfg.devices.map (fun d => d.maxSize))
        e.deviceIndex e.maxQPower
      have hdec : (decide (chooseDevice ds (cfg.devices.map (fun d => d.maxSize))
            e.deviceIndex e.maxQPower = e.deviceIndex) ||
          decide (chooseDevice ds (cfg.devices.map (fun d => d.maxSize))
            e.deviceIndex e.maxQPower = 0) ||
          decide (ds.getD (chooseDevice ds (cfg.devices.map (fun d => d.maxSize))
              e.deviceIndex e.maxQPower) 0 + e.maxQPower ≤
            (cfg.devices.map (fun d => d.maxSize)).getD
              (chooseDevice ds (cfg.devices.map (fun d => d.maxSize))
                e.deviceIndex e.maxQPower) 0)) = true := by
        rcases hc with h | h | h
        · simp [h]
        · simp [h]
        · rw [decide_eq_true h]
          simp
      simp only [Bool.true_and, hdec]
      exact ih _

/-- C1 counterexample: two devices, the default of capacity 4, the other
of capacity 32, and two engines of size 8 both resident on device 1
(where each fits).  The second engine is moved to the less-loaded
default device with no capacity check — `deviceList[0]` receives load 8
against `maxSize = 4` — so the claimed per-placement capacity bound is
violated. -/
theorem redistribute_capacity_counterexample :
    redistCapacityOK ⟨[⟨4⟩, ⟨32⟩], false, 0⟩ [⟨8, 3, 1⟩, ⟨8, 3, 1⟩] = false ∧
    redistributeQEngines ⟨[⟨4⟩, ⟨32⟩], false, 0⟩ [⟨8, 3, 1⟩, ⟨8, 3, 1⟩] =
      [⟨8, 3, 1⟩, ⟨8, 3, 0⟩] := by
  decide

/-- C1 amended: after `RedistributeQEngines`, every (re)placed engine's
target device is its original device, or the default device (index 0) —
both taken without any capacity check — or a device on which the
capacity bound `load + size ≤ maxSize` held at placement time. -/
theorem redistribute_placement_weak_capacity (cfg : RedistConfig)
    (qinfos : List QEngineInfo) : redistPlacementOK cfg qinfos = true := by
  unfold redistPlacementOK
  by_cases h1 : cfg.devices.length = 1
  · simp [h1]
  · simp only [if_neg h1]
    exact redistPlacementOK_foldl cfg qinfos _

/-- First-index minimum-load selection over a candidate list, starting
from a baseline device. -/
def pickMinLoad (devSizes : List Nat) (l : List Nat) (b : Nat) : Nat :=
  l.foldl (fun a j => if devSizes.getD j 0 < devSizes.getD a 0 then j else a) b

/-- The amended formulation of the per-engine device choice: keep the
current device when its load is zero; otherwise take as baseline the
default device if its load strictly beats the current device's (else
the current device), and move to the first minimum-load device among
those whose load is strictly below the baseline's and which fit the
engine within capacity — staying at the baseline when no such device
exists. -/
def chooseDeviceSpec (devSizes maxSizes : List Nat) (d0 size : Nat) : Nat :=
  let sz0 := devSizes.getD d0 0
  if sz0 = 0 then d0
  else
    let base := if devSizes.getD 0 0 < sz0 then 0 else d0
    pickMinLoad devSizes
      ((List.range devSizes.length).filter
        (fun j => decide (devSizes.getD j 0 < devSizes.getD base 0 ∧
          devSizes.getD j 0 + size ≤ maxSizes.getD j 0))) base

/-- The device choice as the claim words it: (a) the current device when
its load is zero, else (b) the default device when the default's load
ties or beats the current device's, else (c) the first minimum-load
device among all devices that fit the engine within capacity (the
current device when none fits). -/
def chooseDeviceClaim (devSizes maxSizes : List Nat) (d0 size : Nat) : Nat :=
  let sz0 := devSizes.getD d0 0
  if sz0 = 0 then d0
  else if devSizes.getD 0 0 ≤ sz0 then 0
  else
    match (List.range devSizes.length).filter
        (fun j => decide (devSizes.getD j 0 + size ≤ maxSizes.getD j 0)) with
    | [] => d0
    | c :: cs => pickMinLoad devSizes cs c

/-- One iteration of the redistribution walk with the amended-spec
device choice. -/
def redistSpecStep (cfg : RedistConfig) (acc : List Nat × List QEngineInfo)
    (e : QEngineInfo) : List Nat × List QEngineInfo :=
  if skipEngine cfg e then (acc.1, acc.2 ++ [e])
  else
    let maxSizes := cfg.devices.map (fun d => d.maxSize)
    let c := chooseDeviceSpec acc.1 maxSizes e.deviceIndex e.maxQPower
    (acc.1.set c (acc.1.getD c 0 + e.maxQPower),
      acc.2 ++ [⟨e.maxQPower, e.unitQubitCount, c⟩])

/-- The redistribution walk as described by the amended claim. -/
def redistributeSpec (cfg : RedistConfig) (qinfos : List QEngineInfo) :
    List QEngineInfo :=
  if cfg.devices.length = 1 then qinfos
  else (qinfos.foldl (redistSpecStep cfg) (List.replicate cfg.devices.length 0, [])).2

/-- One iteration of the redistribution walk with the claim's device
choice. -/
def redistClaimStep (cfg : RedistConfig) (acc : List Nat × List QEngineInfo)
    (e : QEngineInfo) : List Nat × List QEngineInfo :=
  if skipEngine cfg e then (acc.1, acc.2 ++ [e])
  else
    let maxSizes := cfg.devices.map (fun d => d.maxSize)
    let c := chooseDeviceClaim acc.1 maxSizes e.deviceIndex e.maxQPower
    (acc.1.set c (acc.1.getD c 0 + e.maxQPower),
      acc.2 ++ [⟨e.maxQPower, e.unitQubitCount, c⟩])

/-- The redistribution walk exactly as the claim states it. -/
def redistributeClaim (cfg : RedistConfig) (qinfos : List QEngineInfo) :
    List QEngineInfo :=
  if cfg.devices.length = 1 then qinfos
  else (qinfos.foldl (redistClaimStep cfg) (List.replicate cfg.devices.length 0, [])).2

theorem chooseDevice_pairFold_eq_idxFold (devSizes maxSizes : List Nat) (size : Nat) :
    ∀ (l : List Nat) (p : Nat × Nat), p.2 = devSizes.getD p.1 0 →
      (l.foldl
        (fun acc j =>
          if devSizes.getD j 0 < acc.2 ∧ devSizes.getD j 0 + size ≤ maxSizes.getD j 0 then
            (j, devSizes.getD j 0)
          else acc) p).1 =
      l.foldl
        (fun a j =>
          if devSizes.getD j 0 < devSizes.getD a 0 ∧
              devSizes.getD j 0 + size ≤ maxSizes.getD j 0 then j
          else a) p.1 := by
  intro l
  induction l with
  | nil => intro p hp; rfl
  | cons j l ih =>
    intro p hp
    simp only [List.foldl_cons]
    rw [hp]
    by_cases h : devSizes.getD j 0 < devSizes.getD p.1 0 ∧
        devSizes.getD j 0 + size ≤ maxSizes.getD j 0
    · rw [if_pos h, if_pos h]
      exact ih (j, devSizes.getD j 0) rfl
    · rw [if_neg h, if_neg h]
      exact ih p hp

theorem idxFold_eq_filterFold (devSizes maxSizes : List Nat) (size : Nat) :
    ∀ (l : List Nat) (a b : Nat), devSizes.getD a 0 ≤ devSizes.getD b 0 →
      l.foldl
        (fun a j =>
          if devSizes.getD j 0 < devSizes.getD a 0 ∧
              devSizes.getD j 0 + size ≤ maxSizes.getD j 0 then j
          else a) a =
      (l.filter
        (fun j => decide (devSizes.getD j 0 < devSizes.getD b 0 ∧
          devSizes.getD j 0 + size ≤ maxSizes.getD j 0))).foldl
        (fun a j => if devSizes.getD j 0 < devSizes.getD a 0 then j else a) a := by
  intro l
  induction l with
  | nil => intro a b hab; rfl
  | cons j l ih =>
    intro a b hab
    simp only [List.foldl_cons]
    by_cases h : devSizes.getD j 0 < devSizes.getD a 0 ∧
        devSizes.getD j 0 + size ≤ maxSizes.getD j 0
    · have hb : devSizes.getD j 0 < devSizes.getD b 0 ∧
          devSizes.getD j 0 + size ≤ maxSizes.getD j 0 :=
        ⟨lt_of_lt_of_le h.1 hab, h.2⟩
      have hfc : (j :: l).filter
          (fun j => decide (devSizes.getD j 0 < devSizes.getD b 0 ∧
            devSizes.getD j 0 + size ≤ maxSizes.getD j 0)) =
          j :: l.filter
            (fun j => decide (devSizes.getD j 0 < devSizes.getD b 0 ∧
              devSizes.getD j 0 + size ≤ maxSizes.getD j 0)) := by
        rw [List.filter_cons]
        have hb2 : devSizes[j]?.getD 0 < devSizes[b]?.getD 0 ∧
            devSizes[j]?.getD 0 + size ≤ maxSizes[j]?.getD 0 := by
              simpa [List.getD_eq_getElem?_getD] using hb
        simp [hb2]
      rw [if_pos h, hfc]
      simp only [List.foldl_cons]
      rw [if_pos h.1]
      exact ih j b (le_of_lt hb.1)
    · rw [if_neg h]
      by_cases hb : devSizes.getD j 0 < devSizes.getD b 0 ∧
          devSizes.getD j 0 + size ≤ maxSizes.getD j 0
      · have hfc : (j :: l).filter
            (fun j => decide (devSizes.getD j 0 < devSizes.getD b 0 ∧
              devSizes.getD j 0 + size ≤ maxSizes.getD j 0)) =
            j :: l.filter
              (fun j => decide (devSizes.getD j 0 < devSizes.getD b 0 ∧
                devSizes.getD j 0 + size ≤ maxSizes.getD j 0)) := by
          rw [List.filter_cons]
          have hb2 : devSizes[j]?.getD 0 < devSizes[b]?.getD 0 ∧
              devSizes[j]?.getD 0 + size ≤ maxSizes[j]?.getD 0 := by
              simpa [List.getD_eq_getElem?_getD] using hb
          simp [hb2]
        rw [hfc]
        simp only [List.foldl_cons]
        have hja : ¬ devSizes.getD j 0 < devSizes.getD a 0 := by
          intro hlt
          exact h ⟨hlt, hb.2⟩
        rw [if_neg hja]
        exact ih a b hab
      · have hfc : (j :: l).filter
            (fun j => decide (devSizes.getD j 0 < devSizes.getD b 0 ∧
              devSizes.getD j 0 + size ≤ maxSizes.getD j 0)) =
            l.filter
              (fun j => decide (devSizes.getD j 0 < devSizes.getD b 0 ∧
                devSizes.getD j 0 + size ≤ maxSizes.getD j 0)) := by
          rw [List.filter_cons]
          simp only [decide_eq_false hb, Bool.false_eq_true, if_false]
        rw [hfc]
        exact ih a b hab

/-- The per-engine device choice of the source equals the amended
formulation for every input. -/
theorem chooseDevice_eq_spec (devSizes maxSizes : List Nat) (d0 size : Nat) :
    chooseDevice devSizes maxSizes d0 size = chooseDeviceSpec devSizes maxSizes d0 size := by
  unfold chooseDevice chooseDeviceSpec pickMinLoad
  dsimp only
  by_cases h0 : devSizes.getD d0 0 = 0
  · rw [if_pos h0, if_pos h0]
  · rw [if_neg h0, if_neg h0]
    by_cases hdef : devSizes.getD 0 0 < devSizes.getD d0 0
    · rw [if_pos hdef, if_pos hdef]
      rw [chooseDevice_pairFold_eq_idxFold devSizes maxSizes size _ (0, devSizes.getD 0 0) rfl]
      exact idxFold_eq_filterFold devSizes maxSizes size _ 0 0 (le_refl _)
    · rw [if_neg hdef, if_neg hdef]
      rw [chooseDevice_pairFold_eq_idxFold devSizes maxSizes size _
        (d0, devSizes.getD d0 0) rfl]
      exact idxFold_eq_filterFold devSizes maxSizes size _ d0 d0 (le_refl _)

/-- C2 counterexample (tie on the default device's load): two devices of
capacity 100; engines of size 4 on devices 0, 1, 1 in descending-size
order.  For the third engine the default's load (4) ties the current
device's load (4): the claim's rule (b) ("ties or beats") moves it to
the default device, but the source moves only on a strict `<` and keeps
device 1, so the claimed algorithm and the code disagree. -/
theorem redistribute_tie_counterexample :
    redistributeQEngines ⟨[⟨100⟩, ⟨100⟩], false, 0⟩ [⟨4, 2, 0⟩, ⟨4, 2, 1⟩, ⟨4, 2, 1⟩] =
      [⟨4, 2, 0⟩, ⟨4, 2, 1⟩, ⟨4, 2, 1⟩] ∧
    redistributeClaim ⟨[⟨100⟩, ⟨100⟩], false, 0⟩ [⟨4, 2, 0⟩, ⟨4, 2, 1⟩, ⟨4, 2, 1⟩] =
      [⟨4, 2, 0⟩, ⟨4, 2, 1⟩, ⟨4, 2, 0⟩] ∧
    redistributeQEngines ⟨[⟨100⟩, ⟨100⟩], false, 0⟩ [⟨4, 2, 0⟩, ⟨4, 2, 1⟩, ⟨4, 2, 1⟩] ≠
      redistributeClaim ⟨[⟨100⟩, ⟨100⟩], false, 0⟩ [⟨4, 2, 0⟩, ⟨4, 2, 1⟩, ⟨4, 2, 1⟩] := by
  decide

/-- C2 amended: with more than one device, `RedistributeQEngines` walks
the size-descending engines; engines of 1 qubit (and, for a hybrid
sub-engine type, engines below the threshold) keep their device;
otherwise the engine keeps its current device if that device's load is
zero, and else is placed by taking as baseline the default device when
its load strictly beats the current device's (the current device
otherwise) and moving to the first minimum-load device among those with
load strictly below the baseline's that fit within capacity (staying at
the baseline when none exists); the chosen device's load then grows by
the engine's size. -/
theorem redistribute_eq_spec (cfg : RedistConfig) (qinfos : List QEngineInfo) :
    redistributeQEngines cfg qinfos = redistributeSpec cfg qinfos := by
  have hstep : redistStep cfg = redistSpecStep cfg := by
    funext acc e
    unfold redistStep redistSpecStep
    by_cases hs : skipEngine cfg e
    · rw [if_pos hs, if_pos hs]
    · rw [if_neg hs, if_neg hs]
      dsimp only
      rw [chooseDevice_eq_spec]
  unfold redistributeQEngines redistributeSpec
  rw [hstep]

/-- A backing engine (`QInterfacePtr` unit) as `EntangleInCurrentBasis`
observes it: its current `GetDeviceID()`, its `GetQubitCount()`, and its
`GetMaxSize()` (the maximum allocation of its current device). -/
structure MultiEngine where
  deviceId : Nat
  unitQubitCount : Nat
  maxSize : Nat
deriving DecidableEq, Repr

/-- The observable outcome of `QUnitMulti::EntangleInCurrentBasis`:
whether it returned the shared engine immediately, which engine id is
returned, whether the first engine was migrated to the default device,
and whether the base-class entanglement and `RedistributeQEngines` ran. -/
structure EntangleTrace where
  returnedEarly : Bool
  resultUnit : Nat
  movedToDefault : Bool
  delegatedToBase : Bool
  redistributed : Bool
deriving DecidableEq, Repr

/-- The distinct-unit qubit total of `EntangleInCurrentBasis`: walk the
requested bits, and for each engine not seen before (the `found` map)
add its `GetQubitCount()`. -/
def distinctQubitSum (shardUnit : List Nat) (engines : List MultiEngine)
    (bits : List Nat) : Nat :=
  (bits.foldl
    (fun (acc : List Nat × Nat) b =>
      let u := shardUnit.getD b 0
      if u ∈ acc.1 then acc
      else (u :: acc.1, acc.2 + (engines.getD u ⟨0, 0, 0⟩).unitQubitCount))
    ([], 0)).2

/-- `QUnitMulti::EntangleInCurrentBasis(first, last)`.  `shardUnit` maps
each qubit index to the id of its backing engine (after the
`EndEmulation` pass, which only realises cached shard states); `bits`
are the dereferenced iterators.  The base-class
`QUnit::EntangleInCurrentBasis` (outside `src/`) merges the engines of
the range into the first one, modelled by returning `unit1` as the
result id. -/
def entangleInCurrentBasis (defaultDeviceId : Nat) (shardUnit : List Nat)
    (engines : List MultiEngine) (bits : List Nat) : EntangleTrace :=
  let u1 := shardUnit.getD (bits.headD 0) 0
  let isAlreadyEntangled := bits.all (fun b => shardUnit.getD b 0 = u1)
  if isAlreadyEntangled then ⟨true, u1, false, false, false⟩
  else
    let e1 := engines.getD u1 ⟨0, 0, 0⟩
    let moved : Bool :=
      if defaultDeviceId ≠ e1.deviceId then
        decide (e1.maxSize < 2 ^ distinctQubitSum shardUnit engines bits)
      else false
    ⟨false, u1, moved, true, true⟩

/-- C8: `EntangleInCurrentBasis` returns the common engine immediately
(no migration, no delegation, no redistribution) when every requested
bit shares one backing engine; otherwise it migrates the first engine
to the default device exactly when that engine is not already there and
`pow2` of the total distinct qubit count exceeds its `GetMaxSize()`,
then delegates to the base class and runs `RedistributeQEngines`. -/
theorem entangle_shared_or_migrate (defaultDeviceId : Nat) (shardUnit : List Nat)
    (engines : List MultiEngine) (bits : List Nat) :
    (bits.all (fun b => shardUnit.getD b 0 = shardUnit.getD (bits.headD 0) 0) = true →
      entangleInCurrentBasis defaultDeviceId shardUnit engines bits =
        ⟨true, shardUnit.getD (bits.headD 0) 0, false, false, false⟩) ∧
    (bits.all (fun b => shardUnit.getD b 0 = shardUnit.getD (bits.headD 0) 0) = false →
      entangleInCurrentBasis defaultDeviceId shardUnit engines bits =
        ⟨false, shardUnit.getD (bits.headD 0) 0,
          decide (defaultDeviceId ≠
            (engines.getD (shardUnit.getD (bits.headD 0) 0) ⟨0, 0, 0⟩).deviceId) &&
          decide ((engines.getD (shardUnit.getD (bits.headD 0) 0) ⟨0, 0, 0⟩).maxSize <
            2 ^ distinctQubitSum shardUnit engines bits),
          true, true⟩) := by
  constructor
  · intro h
    unfold entangleInCurrentBasis
    dsimp only
    rw [h]
    rfl
  · intro h
    unfold entangleInCurrentBasis
    dsimp only
    rw [h]
    by_cases hd : defaultDeviceId =
        (engines.getD (shardUnit.getD (bits.headD 0) 0) ⟨0, 0, 0⟩).deviceId
    · simp [hd]
    · simp [hd]

/-- Witness for `entangle_shared_or_migrate`: qubits 0 and 1 both live
on engine 0, so entangling bits `[0, 1]` hits the already-entangled
early return. -/
theorem entangle_shared_or_migrate_witness :
    (([0, 1] : List Nat).all
        (fun b => ([0, 0, 1] : List Nat).getD b 0 =
          ([0, 0, 1] : List Nat).getD (([0, 1] : List Nat).headD 0) 0) = true →
      entangleInCurrentBasis 0 [0, 0, 1] [⟨1, 2, 4⟩, ⟨1, 1, 4⟩] [0, 1] =
        ⟨true, 0, false, false, false⟩) ∧
    (([0, 1] : List Nat).all
        (fun b => ([0, 0, 1] : List Nat).getD b 0 =
          ([0, 0, 1] : List Nat).getD (([0, 1] : List Nat).headD 0) 0) = false →
      entangleInCurrentBasis 0 [0, 0, 1] [⟨1, 2, 4⟩, ⟨1, 1, 4⟩] [0, 1] =
        ⟨false, 0,
          decide ((0 : Nat) ≠
            (([⟨1, 2, 4⟩, ⟨1, 1, 4⟩] : List MultiEngine).getD
              (([0, 0, 1] : List Nat).getD (([0, 1] : List Nat).headD 0) 0)
              ⟨0, 0, 0⟩).deviceId) &&
          decide ((([⟨1, 2, 4⟩, ⟨1, 1, 4⟩] : List MultiEngine).getD
              (([0, 0, 1] : List Nat).getD (([0, 1] : List Nat).headD 0) 0)
              ⟨0, 0, 0⟩).maxSize <
            2 ^ distinctQubitSum [0, 0, 1] [⟨1, 2, 4⟩, ⟨1, 1, 4⟩] [0, 1]),
          true, true⟩) :=
  entangle_shared_or_migrate 0 [0, 0, 1] [⟨1, 2, 4⟩, ⟨1, 1, 4⟩] [0, 1]

/-- The `isSwapped` computation of `QBdt::ApplyControlledSingle`: sort
the controls (`std::sort`, modelled by insertion sort), then test
`(target < controlVec.back()) && (target < bdtQubitCount)`. -/
def isSwappedCalc (controls : List Nat) (target bdt : Nat) : Bool :=
  let controlVec := List.insertionSort (fun a b => a ≤ b) controls
  decide (target < controlVec.getLastD 0) && decide (target < bdt)

theorem getLastD_mem : ∀ (s : List Nat) (d : Nat), s ≠ [] → s.getLastD d ∈ s := by
  intro s
  induction s with
  | nil => intro d h; exact absurd rfl h
  | cons a s ih =>
    intro d _
    rw [List.getLastD_cons]
    cases hs : s with
    | nil =>
      subst hs
      simp
    | cons y s2 =>
      subst hs
      exact List.mem_cons_of_mem a (ih a (by simp))

theorem sorted_le_getLastD : ∀ (s : List Nat) (d : Nat),
    s.Sorted (fun a b => a ≤ b) → ∀ x ∈ s, x ≤ s.getLastD d := by
  intro s
  induction s with
  | nil => intro d _ x hx; exact absurd hx (List.not_mem_nil x)
  | cons a s ih =>
    intro d h x hx
    have hpair := List.sorted_cons.mp h
    rw [List.getLastD_cons]
    rcases List.mem_cons.mp hx with hxa | hxs
    · subst hxa
      cases hs : s with
      | nil =>
        subst hs
        simp
      | cons y s2 =>
        subst hs
        exact hpair.1 _ (getLastD_mem (y :: s2) x (by simp))
    · exact ih a hpair.2 x hxs

theorem lt_sort_getLastD_iff (l : List Nat) (hl : l ≠ []) (t : Nat) :
    t < (List.insertionSort (fun a b => a ≤ b) l).getLastD 0 ↔ ∃ d ∈ l, t < d := by
  have hperm := List.perm_insertionSort (fun a b => a ≤ b) l
  have hsorted := List.sorted_insertionSort (fun a b => a ≤ b) l
  have hne : List.insertionSort (fun a b => a ≤ b) l ≠ [] := by
    intro h0
    have := hperm.length_eq
    rw [h0] at this
    exact hl (List.eq_nil_of_length_eq_zero this.symm)
  constructor
  · intro hlt
    refine ⟨(List.insertionSort (fun a b => a ≤ b) l).getLastD 0, ?_, hlt⟩
    exact hperm.mem_iff.mp (getLastD_mem _ 0 hne)
  · rintro ⟨d, hd, htd⟩
    have hdm : d ∈ List.insertionSort (fun a b => a ≤ b) l := hperm.mem_iff.mpr hd
    exact lt_of_lt_of_le htd (sorted_le_getLastD _ 0 hsorted d hdm)

theorem isSwappedCalc_eq_any (l : List Nat) (hl : l ≠ []) (t bdt : Nat) :
    isSwappedCalc l t bdt = (l.any (fun d => decide (t < d)) && decide (t < bdt)) := by
  unfold isSwappedCalc
  dsimp only
  congr 1
  cases hany : l.any (fun d => decide (t < d)) with
  | true =>
    have := List.any_eq_true.mp hany
    rcases this with ⟨d, hd, htd⟩
    exact decide_eq_true ((lt_sort_getLastD_iff l hl t).mpr ⟨d, hd, of_decide_eq_true htd⟩)
  | false =>
    refine decide_eq_false ?_
    intro hlt
    rcases (lt_sort_getLastD_iff l hl t).mp hlt with ⟨d, hd, htd⟩
    have := List.any_eq_false.mp hany d hd
    exact this (decide_eq_true htd)

/-- A 2×2 complex matrix as passed to `Mtrx`/`MCMtrx`
(`mtrx[0] mtrx[1]; mtrx[2] mtrx[3]`). -/
structure Mat2 where
  m00 : CQ
  m01 : CQ
  m10 : CQ
  m11 : CQ
deriving DecidableEq, Repr

/-- A pure state as an amplitude map over bit assignments of the qubit
indices. -/
def QState := (Nat → Bool) → CQ

/-- Update one bit of a basis assignment. -/
def updB (x : Nat → Bool) (t : Nat) (v : Bool) : Nat → Bool :=
  fun i => if i = t then v else x i

/-- Exchange the roles of qubits `t` and `c` in a basis assignment. -/
def swapIdx (t c : Nat) (x : Nat → Bool) : Nat → Bool :=
  fun i => if i = t then x c else if i = c then x t else x i

/-- Modelled from the spec: `QInterface::Swap(t, c)` (outside `src/`)
exchanges two qubits; on the amplitude map it precomposes with the index
exchange. -/
def swapQubits (t c : Nat) (ψ : QState) : QState := fun x => ψ (swapIdx t c x)

/-- Modelled from the spec: the semantic action of a multi-controlled
single-qubit gate (`MCMtrx`, §4.2/§6) on the amplitude map — the 2×2
matrix acts on the target bit of every basis state whose control bits
are all 1; `ApplyControlledSingle` realises this action on the tree. -/
def mcmtrxSem (m : Mat2) (controls : List Nat) (target : Nat) (ψ : QState) : QState :=
  fun x =>
    if controls.all (fun d => x d) then
      if x target then cadd (cmul m.m10 (ψ (updB x target false))) (cmul m.m11 (ψ x))
      else cadd (cmul m.m00 (ψ x)) (cmul m.m01 (ψ (updB x target true)))
    else ψ x

theorem swapIdx_swapIdx (t c : Nat) (h3 : t ≠ c) (x : Nat → Bool) :
    swapIdx t c (swapIdx t c x) = x := by
  funext i
  unfold swapIdx
  by_cases hit : i = t
  · simp [hit, Ne.symm h3]
  · by_cases hic : i = c
    · simp only [hic, hit, if_false]
      simp [h3]
      intro h1 h2
      exact absurd h1 h2
    · simp [hit, hic]

theorem swapIdx_t (t c : Nat) (x : Nat → Bool) : swapIdx t c x t = x c := by
  simp [swapIdx]

theorem swapIdx_c (t c : Nat) (h3 : t ≠ c) (x : Nat → Bool) : swapIdx t c x c = x t := by
  simp [swapIdx, Ne.symm h3]

theorem swapIdx_other (t c d : Nat) (hdt : d ≠ t) (hdc : d ≠ c) (x : Nat → Bool) :
    swapIdx t c x d = x d := by
  simp [swapIdx, hdt, hdc]

theorem swapIdx_updB (t c : Nat) (h3 : t ≠ c) (x : Nat → Bool) (v : Bool) :
    swapIdx t c (updB (swapIdx t c x) c v) = updB x t v := by
  funext i
  unfold swapIdx updB
  by_cases hit : i = t
  · simp [hit, Ne.symm h3]
  · by_cases hic : i = c
    · simp only [hic, hit, if_neg (Ne.symm h3), if_true, if_pos rfl]
      simp [Ne.symm h3]
      intro h
      exact absurd h h3
    · simp [hit, hic]

theorem all_swapIdx (t c : Nat) (x : Nat → Bool) :
    ∀ (cs : List Nat), t ∉ cs → c ∉ cs →
      (cs.all fun d => swapIdx t c x d) = (cs.all fun d => x d) := by
  intro cs
  induction cs with
  | nil => intro _ _; rfl
  | cons d cs ih =>
    intro h1 h2
    have hdt : d ≠ t := by
      intro hd
      exact h1 (hd ▸ List.mem_cons_self d cs)
    have hdc : d ≠ c := by
      intro hd
      exact h2 (hd ▸ List.mem_cons_self d cs)
    simp only [List.all_cons, swapIdx_other t c d hdt hdc]
    rw [ih (fun hm => h1 (List.mem_cons_of_mem d hm))
      (fun hm => h2 (List.mem_cons_of_mem d hm))]

theorem mcmtrx_swap_conjugation (m : Mat2) (cs : List Nat) (c t : Nat) (ψ : QState)
    (h1 : t ∉ cs) (h2 : c ∉ cs) (h3 : t ≠ c) :
    swapQubits t c (mcmtrxSem m (cs ++ [t]) c (swapQubits t c ψ)) =
      mcmtrxSem m (cs ++ [c]) t ψ := by
  funext x
  unfold swapQubits mcmtrxSem
  dsimp only
  have hcond : ((cs ++ [t]).all fun d => swapIdx t c x d) =
      ((cs ++ [c]).all fun d => x d) := by
    rw [List.all_append, List.all_append, all_swapIdx t c x cs h1 h2]
    simp [swapIdx_t]
  rw [hcond]
  by_cases hc : ((cs ++ [c]).all fun d => x d) = true
  · rw [if_pos hc, if_pos hc, swapIdx_c t c h3 x]
    by_cases hxt : x t = true
    · rw [if_pos hxt, if_pos hxt, swapIdx_updB t c h3 x false, swapIdx_swapIdx t c h3 x]
    · rw [if_neg hxt, if_neg hxt, swapIdx_updB t c h3 x true, swapIdx_swapIdx t c h3 x]
  · rw [if_neg hc, if_neg hc, swapIdx_swapIdx t c h3 x]

/-- C7 counterexample: with sorted controls `[0, 5]`, target 2 and
`bdtQubitCount = 6`, the source's condition `target < controlVec.back()`
holds (`2 < 5`) and the swap fires, although control 0 is *below* the
target — the claim's "all of the controls are above the target" is
false there, so the claimed "exactly when" characterisation fails. -/
theorem applyControlledSingle_swap_counterexample :
    isSwappedCalc [0, 5] 2 6 ≠
      (([0, 5] : List Nat).all (fun d => decide (2 < d)) && decide ((2 : Nat) < 6)) := by
  decide

/-- C7 amended: the swap with the largest control fires exactly when
*some* control (equivalently, the largest control) lies above the
target and the target is a tree qubit; and conjugating the
multi-controlled gate by the swap — applying it with the roles of the
target `t` and the largest control `c` exchanged between two `Swap`s —
has the same overall effect as the original gate. -/
theorem applyControlledSingle_swap_correct (m : Mat2) (cs : List Nat) (c t bdt : Nat)
    (ψ : QState) (h1 : t ∉ cs) (h2 : c ∉ cs) (h3 : t ≠ c) :
    isSwappedCalc (cs ++ [c]) t bdt =
      ((cs ++ [c]).any (fun d => decide (t < d)) && decide (t < bdt)) ∧
    swapQubits t c (mcmtrxSem m (cs ++ [t]) c (swapQubits t c ψ)) =
      mcmtrxSem m (cs ++ [c]) t ψ :=
  ⟨isSwappedCalc_eq_any (cs ++ [c]) (by simp) t bdt,
    mcmtrx_swap_conjugation m cs c t ψ h1 h2 h3⟩

/-- Witness for `applyControlledSingle_swap_correct`: controls
`[0] ++ [5]`, target 2, `bdtQubitCount = 6`, an identity-shaped matrix
and a constant amplitude map. -/
theorem applyControlledSingle_swap_correct_witness :
    ((2 : Nat) ∉ ([0] : List Nat) ∧ (5 : Nat) ∉ ([0] : List Nat) ∧ (2 : Nat) ≠ 5) ∧
    (isSwappedCalc ([0] ++ [5]) 2 6 =
      ((([0] : List Nat) ++ [5]).any (fun d => decide (2 < d)) && decide ((2 : Nat) < 6)) ∧
    swapQubits 2 5 (mcmtrxSem ⟨cone, czero, czero, cone⟩ ([0] ++ [2]) 5
        (swapQubits 2 5 (fun _ => cone))) =
      mcmtrxSem ⟨cone, czero, czero, cone⟩ ([0] ++ [5]) 2 (fun _ => cone)) :=
  ⟨⟨by decide, by decide, by decide⟩,
    applyControlledSingle_swap_correct ⟨cone, czero, czero, cone⟩ [0] 5 2 6
      (fun _ => cone) (by decide) (by decide) (by decide)⟩

end Qrack
